import Mathlib

/-!
Shallow embedding of the UTXO transaction pipeline from
`src/transactions/transaction.rs`: construction (`new_coinbase`,
`new_utxo`), canonical hashing (`set_hash`), per-input signing (`sign`),
verification (`verify`), the coinbase predicate (`is_coinbase`) and the
scratch-copy machinery (`trimmed_copy`).

The repository ships only `transaction.rs`; the collaborator modules it
uses (`tx_input.rs`, `tx_output.rs`, `utils.rs`, the blockchain resolver,
the UTXO set and the wallet store) are modelled from the specification as
explicit data (an `Env` record of functions) so that every definition
stays executable.  Rust panics (missing prior transaction, insufficient
funds, unknown wallet, out-of-bounds output index) are modelled as values
of an explicit error type carried by `Except`.

Machine integers: Rust `i32` amounts become `Int` (no claim exercises
i32 overflow), `usize` indices become `Nat`, byte vectors become
`List Nat`.
-/

/-- Modelled from the spec (section 3, `tx_input.rs` is absent from the
sources): a transaction input holds the id of the prior transaction being
spent, the index of the spent output inside it, the attached signature
bytes and the claimed authorizer public key. -/
structure Txinput where
  txid : String
  vout : Nat
  signature : List Nat
  pub_key : List Nat
deriving DecidableEq, Repr

/-- Modelled from the spec (`Txinput::new(txid, vout, pub_key)`): the
signature starts out empty ("absent/empty until signed"). -/
def Txinput.new (txid : String) (vout : Nat) (pk : List Nat) : Txinput :=
  { txid := txid, vout := vout, signature := [], pub_key := pk }

/-- Modelled from the spec (`Txinput::default()` used by the coinbase
builder): every field empty. -/
def Txinput.empty : Txinput :=
  { txid := "", vout := 0, signature := [], pub_key := [] }

instance : Inhabited Txinput := ⟨Txinput.empty⟩

/-- Modelled from the spec (section 3, `tx_output.rs` is absent from the
sources): an output holds a value and the locking hash binding it to a
recipient. -/
structure Txoutput where
  value : Int
  pub_key_hash : List Nat
deriving DecidableEq, Repr

/-- Modelled from the spec (`Txoutput::new(value, address)`): the locking
hash is a deterministic one-way digest of the recipient address; the
digest function `lock` is supplied by the environment. -/
def Txoutput.new (lock : String → List Nat) (value : Int) (addr : String) : Txoutput :=
  { value := value, pub_key_hash := lock addr }

/-- The transaction record of `transaction.rs`: hex id, ordered inputs,
ordered outputs. -/
structure Transaction where
  id : String
  vin : List Txinput
  vout : List Txoutput
deriving DecidableEq, Repr

instance : Inhabited Transaction := ⟨⟨"", [], []⟩⟩

/-- Modelled from the spec (wallet store, section 6): a wallet exposes the
public key and the pkcs8 private-key material. -/
structure Wallet where
  public_key : List Nat
  pkcs8 : List Nat

/-- Errors modelling the panics of `transaction.rs`:
`unknownSender` for `wallets.get_wallet(from).unwrap()`,
`insufficientFunds` for the "not enough funds" panic,
`missingPriorTx` for the "Previous transaction is not correct" panic in
`sign`/`verify`, and `indexOutOfBounds` for the unchecked
`prev_tx.vout[vin.get_vout()]` indexing panic. -/
inductive TxError where
  | unknownSender
  | insufficientFunds
  | missingPriorTx
  | indexOutOfBounds
deriving DecidableEq, Repr

/-- Byte encoding of a length-prefixed list of byte values. -/
def encNats (l : List Nat) : List Nat := l.length :: l

/-- Byte encoding of a string: length prefix followed by its characters. -/
def encStr (s : String) : List Nat := s.length :: s.data.map Char.toNat

/-- Byte encoding of a signed value. -/
def encInt : Int → List Nat
  | Int.ofNat n => [0, n]
  | Int.negSucc n => [1, n]

/-- Byte encoding of one input: all four fields in structural order. -/
def encInput (i : Txinput) : List Nat :=
  encStr i.txid ++ [i.vout] ++ encNats i.signature ++ encNats i.pub_key

/-- Byte encoding of one output: both fields in structural order. -/
def encOutput (o : Txoutput) : List Nat :=
  encInt o.value ++ encNats o.pub_key_hash

/-- Modelled from the spec (section 4.1, `utils::serialize` is absent from
the sources): a deterministic byte encoding covering `id`, `inputs` and
`outputs` in their structural order.  The `id` field is encoded as-is; it
is not cleared before encoding. -/
def serializeTx (tx : Transaction) : List Nat :=
  encStr tx.id
    ++ (tx.vin.length :: (tx.vin.map encInput).flatten)
    ++ (tx.vout.length :: (tx.vout.map encOutput).flatten)

/-- The external collaborators of `transaction.rs`, modelled from the spec
(section 6) as a record of functions:
`hash` is `hash_to_str` over serialized bytes; `signFn`/`verifyFn` are the
ECDSA primitives (the message is the digest string, absorbing
`id.as_bytes()`); `resolver` is `Blockchain::find_transaction`;
`wallets` is the wallet store lookup; `hash_pub_key` and `lock` are the
locking-hash digests; `find_spendable` is
`UTXOSet::find_spendable_outputs`, returning the accumulated total and
the consumed `(prior_tx_id, output_index)` sets. -/
structure Env where
  hash : List Nat → String
  signFn : List Nat → String → List Nat
  verifyFn : List Nat → List Nat → String → Bool
  resolver : String → Option Transaction
  wallets : String → Option Wallet
  hash_pub_key : List Nat → List Nat
  lock : String → List Nat
  find_spendable : List Nat → Int → Int × List (String × List Nat)

/-- Replace the element at one position of a list, leaving the list
unchanged when the index is out of range (models `tx_copy.vin[idx].set_x`). -/
def modifyIdx : Nat → (α → α) → List α → List α
  | _, _, [] => []
  | 0, f, x :: xs => f x :: xs
  | Nat.succ n, f, x :: xs => x :: modifyIdx n f xs

/-- `Transaction::set_hash`: overwrite `id` with the digest of the
serialized transaction (the serialization includes the current `id`).
The Rust code skips the assignment if serialization fails; the modelled
encoding is total, so the assignment always happens. -/
def Transaction.set_hash (E : Env) (tx : Transaction) : Transaction :=
  { tx with id := E.hash (serializeTx tx) }

/-- `Transaction::is_coinbase`: exactly one input and that input carries
an empty public key. -/
def Transaction.is_coinbase (tx : Transaction) : Bool :=
  tx.vin.length == 1 && (tx.vin.headD Txinput.empty).pub_key.length == 0

/-- `Transaction::trimmed_copy`: same id and outputs, inputs rebuilt with
`Txinput::new(txid, vout, vec![])`, so signatures and public keys are
cleared. -/
def Transaction.trimmed_copy (tx : Transaction) : Transaction :=
  { id := tx.id
    vin := tx.vin.map (fun i => Txinput.new i.txid i.vout [])
    vout := tx.vout }

/-- The loop body shared verbatim by `sign` and `verify`: resolve the
prior transaction of input `i` (panic if absent), index its outputs at
`i.vout` (unchecked in Rust, an error here), then on the scratch copy set
the signature of position `idx` to empty, set its public key to the prior
output's locking hash, recompute the hash, and clear the public key
again.  Returns the digest (the scratch id) and the updated scratch. -/
def scratchDigest (E : Env) (i : Txinput) (idx : Nat) (tc : Transaction) :
    Except TxError (String × Transaction) :=
  match E.resolver i.txid with
  | none => .error .missingPriorTx
  | some prev_tx =>
    match prev_tx.vout[i.vout]? with
    | none => .error .indexOutOfBounds
    | some prev_out =>
      let c1 := { tc with vin := modifyIdx idx (fun x => { x with signature := [] }) tc.vin }
      let c2 := { c1 with vin := modifyIdx idx (fun x => { x with pub_key := prev_out.pub_key_hash }) c1.vin }
      let c3 := Transaction.set_hash E c2
      let c4 := { c3 with vin := modifyIdx idx (fun x => { x with pub_key := [] }) c3.vin }
      .ok (c3.id, c4)

/-- The signing loop of `Transaction::sign`: walk the inputs in positional
order, derive each per-input digest on the threaded scratch copy, and
attach `signFn pkcs8 digest` to the original input. -/
def signInputs (E : Env) (pkcs8 : List Nat) :
    List Txinput → Nat → Transaction → Except TxError (List Txinput × Transaction)
  | [], _, tc => .ok ([], tc)
  | i :: rest, idx, tc =>
    match scratchDigest E i idx tc with
    | .error e => .error e
    | .ok (d, tc') =>
      match signInputs E pkcs8 rest (idx + 1) tc' with
      | .error e => .error e
      | .ok (rest', tcF) => .ok ({ i with signature := E.signFn pkcs8 d } :: rest', tcF)

/-- `Transaction::sign`: run the signing loop from the trimmed copy and
attach the produced signatures; any panic aborts the whole call. -/
def Transaction.sign (E : Env) (pkcs8 : List Nat) (tx : Transaction) :
    Except TxError Transaction :=
  match signInputs E pkcs8 tx.vin 0 tx.trimmed_copy with
  | .error e => .error e
  | .ok (vin', _) => .ok { tx with vin := vin' }

/-- The verification loop of `Transaction::verify`: walk the inputs in
positional order, rebuild each per-input digest on the threaded scratch
copy, and check the attached signature against the claimed public key;
return false at the first failure. -/
def verifyInputs (E : Env) :
    List Txinput → Nat → Transaction → Except TxError Bool
  | [], _, _ => .ok true
  | i :: rest, idx, tc =>
    match scratchDigest E i idx tc with
    | .error e => .error e
    | .ok (d, tc') =>
      if E.verifyFn i.pub_key i.signature d then
        verifyInputs E rest (idx + 1) tc'
      else
        .ok false

/-- `Transaction::verify`: coinbase transactions are accepted outright;
otherwise run the verification loop from the trimmed copy. -/
def Transaction.verify (E : Env) (tx : Transaction) : Except TxError Bool :=
  if tx.is_coinbase then .ok true
  else verifyInputs E tx.vin 0 tx.trimmed_copy

/-- The fixed block subsidy (`const SUBSIDY: i32 = 10`). -/
def SUBSIDY : Int := 10

/-- `Transaction::new_coinbase`: one default input, one subsidy output
locked to the recipient, then hash. -/
def Transaction.new_coinbase (E : Env) (recipient : String) : Transaction :=
  Transaction.set_hash E
    { id := "", vin := [Txinput.empty], vout := [Txoutput.new E.lock SUBSIDY recipient] }

/-- `Transaction::new_utxo`: look the sender up in the wallet store (panic
if absent), collect spendable outputs for the sender's key hash, panic on
insufficient funds, build one input per consumed output carrying the
sender's full public key, build the recipient output plus a change output
exactly when the accumulated total strictly exceeds the amount, hash, and
sign. -/
def Transaction.new_utxo (E : Env) (sender recipient : String) (amount : Int) :
    Except TxError Transaction :=
  match E.wallets sender with
  | none => .error .unknownSender
  | some wallet =>
    let public_key_hash := E.hash_pub_key wallet.public_key
    let found := E.find_spendable public_key_hash amount
    if found.1 < amount then .error .insufficientFunds
    else
      let inputs :=
        (found.2.map (fun p => p.2.map (fun idx => Txinput.new p.1 idx wallet.public_key))).flatten
      let outputs :=
        [Txoutput.new E.lock amount recipient]
          ++ (if amount < found.1 then [Txoutput.new E.lock (found.1 - amount) sender] else [])
      let tx := Transaction.set_hash E { id := "", vin := inputs, vout := outputs }
      tx.sign E wallet.pkcs8

/-- Specification-side characterization (not part of the source): the
sequence of per-input digests produced by threading the scratch copy
through the inputs, together with the final scratch state. -/
def digestThread (E : Env) :
    List Txinput → Nat → Transaction → Except TxError (List String × Transaction)
  | [], _, tc => .ok ([], tc)
  | i :: rest, idx, tc =>
    match scratchDigest E i idx tc with
    | .error e => .error e
    | .ok (d, tc') =>
      match digestThread E rest (idx + 1) tc' with
      | .error e => .error e
      | .ok (ds, tcF) => .ok (d :: ds, tcF)

/-- Specification-side predicate: the attached signature of input `i`
verifies against its claimed public key and the digest `d`. -/
def inputPasses (E : Env) (i : Txinput) (d : String) : Bool :=
  E.verifyFn i.pub_key i.signature d

/-! Concrete test fixtures: a small deterministic environment used to
exercise the pipeline on closed inputs (toy hash and toy signature
primitive; the primitive accepts a signature iff it equals the public
key, and signing with key material `k` emits `k`, so the key pair
`([1], [1])` round-trips). -/

/-- A prior transaction with two spendable outputs of value 5 each. -/
def cPrior : Transaction :=
  { id := "t1", vin := []
    vout := [{ value := 5, pub_key_hash := [7] }, { value := 5, pub_key_hash := [7] }] }

/-- The toy environment: one wallet ("alice", key pair `[1]`/`[1]`), one
resolvable prior transaction (`"t1"`), 10 units spendable split over the
two outputs of `cPrior`. -/
def cEnv : Env :=
  { hash := fun _ => "d"
    signFn := fun k _ => k
    verifyFn := fun p s _ => p == s
    resolver := fun s => if s = "t1" then some cPrior else none
    wallets := fun s => if s = "alice" then some { public_key := [1], pkcs8 := [1] } else none
    hash_pub_key := fun l => l
    lock := fun s => [s.length]
    find_spendable := fun _ _ => (10, [("t1", [0, 1])]) }

/-- The spend transaction built by `new_utxo` for amount 4 in `cEnv`. -/
def cSpendTx : Transaction :=
  match Transaction.new_utxo cEnv "alice" "bob" 4 with
  | .ok t => t
  | .error _ => default

/-- An unsigned spend transaction over both outputs of `cPrior`. -/
def cUnsigned : Transaction :=
  Transaction.set_hash cEnv
    { id := ""
      vin := [Txinput.new "t1" 0 [1], Txinput.new "t1" 1 [1]]
      vout := [Txoutput.new cEnv.lock 4 "bob", Txoutput.new cEnv.lock 6 "alice"] }

/-- The result of signing `cUnsigned` with the toy key material. -/
def cSigned : Transaction :=
  match cUnsigned.sign cEnv [1] with
  | .ok t => t
  | .error _ => default

/-- A reward-shaped transaction carrying garbage signature bytes. -/
def cRewardTx : Transaction :=
  { id := "r"
    vin := [{ txid := "", vout := 0, signature := [9, 9], pub_key := [] }]
    vout := [] }

/-- A non-reward transaction whose first input fails its signature check
(signature `[2]` against key `[1]`) and whose second input references an
unresolvable prior transaction. -/
def badTx : Transaction :=
  { id := "x"
    vin := [{ txid := "t1", vout := 0, signature := [2], pub_key := [1] },
            { txid := "missing", vout := 0, signature := [], pub_key := [1] }]
    vout := [] }

/-- An input referencing an unresolvable prior transaction. -/
def cMissIn : Txinput :=
  { txid := "missing", vout := 0, signature := [1], pub_key := [1] }

/-- A non-reward transaction whose only input is unresolvable. -/
def cMissingTx : Transaction :=
  { id := "m", vin := [cMissIn], vout := [] }

/-- A one-input transaction that passes verification in `cEnv`. -/
def cVerTx : Transaction :=
  { id := "w"
    vin := [{ txid := "t1", vout := 0, signature := [1], pub_key := [1] }]
    vout := [] }

/-- The scratch state after threading the digest computation over the
inputs of `cVerTx`. -/
def cThreadF : Transaction :=
  match digestThread cEnv cVerTx.vin 0 cVerTx.trimmed_copy with
  | .ok (_, t) => t
  | .error _ => default

/-- A non-reward transaction whose input references output index 5 of
`cPrior`, which has only two outputs. -/
def cOobTx : Transaction :=
  { id := "o"
    vin := [{ txid := "t1", vout := 5, signature := [], pub_key := [1] }]
    vout := [] }

/-! Structural lemmas about the shared scratch-digest step. -/

/-- The scratch step reads only `txid` and `vout` of the input, so the
attached signature is irrelevant to it. -/
theorem scratchDigest_sig_irrel (E : Env) (i : Txinput) (s : List Nat)
    (idx : Nat) (tc : Transaction) :
    scratchDigest E { i with signature := s } idx tc = scratchDigest E i idx tc := rfl

/-- Two inputs with the same prior reference produce the same scratch
step. -/
theorem scratchDigest_congr (E : Env) {i j : Txinput} (h1 : i.txid = j.txid)
    (h2 : i.vout = j.vout) (idx : Nat) (tc : Transaction) :
    scratchDigest E i idx tc = scratchDigest E j idx tc := by
  simp only [scratchDigest, h1, h2]

/-- The scratch step can only fail with the two panic kinds of the
`sign`/`verify` loop bodies. -/
theorem scratchDigest_err_kind (E : Env) (i : Txinput) (idx : Nat)
    (tc : Transaction) (e : TxError)
    (h : scratchDigest E i idx tc = .error e) :
    e = TxError.missingPriorTx ∨ e = TxError.indexOutOfBounds := by
  unfold scratchDigest at h
  split at h
  · cases h; exact Or.inl rfl
  · split at h
    · cases h; exact Or.inr rfl
    · cases h

/-- An unresolvable prior reference makes the scratch step fail with the
missing-prior-transaction panic. -/
theorem scratchDigest_missing (E : Env) (i : Txinput) (idx : Nat)
    (tc : Transaction) (h : E.resolver i.txid = none) :
    scratchDigest E i idx tc = .error TxError.missingPriorTx := by
  unfold scratchDigest
  rw [h]

/-- An out-of-range output index on a resolvable prior transaction makes
the scratch step fail with the indexing panic. -/
theorem scratchDigest_oob (E : Env) (i : Txinput) (idx : Nat)
    (tc : Transaction) (prev : Transaction)
    (hres : E.resolver i.txid = some prev)
    (hge : prev.vout.length ≤ i.vout) :
    scratchDigest E i idx tc = .error TxError.indexOutOfBounds := by
  simp only [scratchDigest, hres, List.getElem?_eq_none hge]

/-- A resolvable prior transaction with the referenced output in range
makes the scratch step succeed. -/
theorem scratchDigest_total (E : Env) (i : Txinput) (idx : Nat)
    (tc : Transaction) (prev : Transaction)
    (hres : E.resolver i.txid = some prev)
    (hlt : i.vout < prev.vout.length) :
    ∃ d tc', scratchDigest E i idx tc = .ok (d, tc') := by
  simp only [scratchDigest, hres, List.getElem?_eq_getElem hlt]
  exact ⟨_, _, rfl⟩

/-! Lemmas about the signing and verification loops. -/

/-- The digest thread depends only on the prior references of the inputs,
not on their signatures or claimed keys. -/
theorem digestThread_congr (E : Env) :
    ∀ (l1 l2 : List Txinput),
      List.Forall₂ (fun a b => a.txid = b.txid ∧ a.vout = b.vout) l1 l2 →
      ∀ (idx : Nat) (tc : Transaction),
        digestThread E l1 idx tc = digestThread E l2 idx tc := by
  intro l1
  induction l1 with
  | nil =>
    intro l2 h idx tc
    cases h
    rfl
  | cons a l1' ih =>
    intro l2 h idx tc
    cases h with
    | cons h1 h2 =>
      rename_i b l2'
      simp only [digestThread]
      rw [scratchDigest_congr E h1.1 h1.2 idx tc]
      cases hsd : scratchDigest E b idx tc with
      | error e => rfl
      | ok p =>
        obtain ⟨d, tc'⟩ := p
        simp only [ih l2' h2]

/-- When the digest thread over a list of inputs succeeds, the
verification loop returns exactly the conjunction of the per-input
signature checks. -/
theorem verifyInputs_of_digestThread (E : Env) :
    ∀ (inputs : List Txinput) (idx : Nat) (tc : Transaction)
      (ds : List String) (tcF : Transaction),
      digestThread E inputs idx tc = .ok (ds, tcF) →
      verifyInputs E inputs idx tc =
        .ok ((List.zipWith (inputPasses E) inputs ds).all id) := by
  intro inputs
  induction inputs with
  | nil =>
    intro idx tc ds tcF h
    simp only [digestThread, Except.ok.injEq, Prod.mk.injEq] at h
    rw [← h.1]
    rfl
  | cons i rest ih =>
    intro idx tc ds tcF h
    cases hsd : scratchDigest E i idx tc with
    | error e => simp [digestThread, hsd] at h
    | ok p =>
      obtain ⟨d, tc'⟩ := p
      cases hdt : digestThread E rest (idx + 1) tc' with
      | error e => simp [digestThread, hsd, hdt] at h
      | ok q =>
        obtain ⟨ds', tcF'⟩ := q
        simp only [digestThread, hsd, hdt, Except.ok.injEq, Prod.mk.injEq] at h
        obtain ⟨hds, htc⟩ := h
        subst hds
        simp only [verifyInputs, hsd]
        cases hb : E.verifyFn i.pub_key i.signature d with
        | true =>
          rw [ih (idx + 1) tc' ds' tcF' hdt]
          simp [List.zipWith_cons_cons, List.all_cons, inputPasses, hb]
        | false =>
          simp [List.zipWith_cons_cons, List.all_cons, inputPasses, hb]

/-- When every input of a prefix passes its signature check, the
verification loop continues past the prefix from the threaded scratch
state. -/
theorem verifyInputs_append (E : Env) :
    ∀ (pre rest : List Txinput) (idx : Nat) (tc : Transaction)
      (ds : List String) (tc' : Transaction),
      digestThread E pre idx tc = .ok (ds, tc') →
      (List.zipWith (inputPasses E) pre ds).all id = true →
      verifyInputs E (pre ++ rest) idx tc =
        verifyInputs E rest (idx + pre.length) tc' := by
  intro pre
  induction pre with
  | nil =>
    intro rest idx tc ds tc' h _
    simp only [digestThread, Except.ok.injEq, Prod.mk.injEq] at h
    rw [← h.2]
    simp
  | cons i pre' ih =>
    intro rest idx tc ds tc' h hall
    cases hsd : scratchDigest E i idx tc with
    | error e => simp [digestThread, hsd] at h
    | ok p =>
      obtain ⟨d, tc1⟩ := p
      cases hdt : digestThread E pre' (idx + 1) tc1 with
      | error e => simp [digestThread, hsd, hdt] at h
      | ok q =>
        obtain ⟨ds', tcF⟩ := q
        simp only [digestThread, hsd, hdt, Except.ok.injEq, Prod.mk.injEq] at h
        obtain ⟨hds, htc⟩ := h
        subst hds
        subst htc
        simp only [List.zipWith_cons_cons, List.all_cons, Bool.and_eq_true, id_eq] at hall
        obtain ⟨hpass, hall'⟩ := hall
        simp only [List.cons_append, verifyInputs, hsd]
        rw [show E.verifyFn i.pub_key i.signature d = true from hpass]
        simp only [if_true, List.append_eq]
        rw [ih rest (idx + 1) tc1 ds' tcF hdt hall']
        congr 1
        simp only [List.length_cons]
        omega

/-- Splitting the digest thread at its last input. -/
theorem digestThread_snoc (E : Env) :
    ∀ (pre : List Txinput) (i : Txinput) (idx : Nat) (tc : Transaction)
      (ds : List String) (tcF : Transaction),
      digestThread E (pre ++ [i]) idx tc = .ok (ds, tcF) →
      ∃ ds0 tc' d,
        digestThread E pre idx tc = .ok (ds0, tc') ∧
        scratchDigest E i (idx + pre.length) tc' = .ok (d, tcF) ∧
        ds = ds0 ++ [d] := by
  intro pre
  induction pre with
  | nil =>
    intro i idx tc ds tcF h
    simp only [List.nil_append] at h
    cases hsd : scratchDigest E i idx tc with
    | error e => simp [digestThread, hsd] at h
    | ok p =>
      obtain ⟨d, tc1⟩ := p
      simp only [digestThread, hsd, Except.ok.injEq, Prod.mk.injEq] at h
      obtain ⟨hds, htc⟩ := h
      refine ⟨[], tc, d, rfl, ?_, by simp [← hds]⟩
      simp only [List.length_nil, Nat.add_zero, hsd, htc]
  | cons j pre' ih =>
    intro i idx tc ds tcF h
    simp only [List.cons_append] at h
    cases hsd : scratchDigest E j idx tc with
    | error e => simp [digestThread, hsd] at h
    | ok p =>
      obtain ⟨d0, tc1⟩ := p
      cases hdt : digestThread E (pre' ++ [i]) (idx + 1) tc1 with
      | error e => simp [digestThread, hsd, List.append_eq, hdt] at h
      | ok q =>
        obtain ⟨ds1, tcF1⟩ := q
        simp only [digestThread, hsd, List.append_eq, hdt, Except.ok.injEq,
          Prod.mk.injEq] at h
        obtain ⟨hds, htc⟩ := h
        subst htc
        obtain ⟨ds0, tc', d, hpre, hlast, hsplit⟩ := ih i (idx + 1) tc1 ds1 tcF1 hdt
        refine ⟨d0 :: ds0, tc', d, ?_, ?_, ?_⟩
        · simp [digestThread, hsd, hpre]
        · rw [show idx + (j :: pre').length = idx + 1 + pre'.length by
            simp only [List.length_cons]; omega]
          exact hlast
        · rw [← hds, hsplit]
          rfl

/-- The signing loop succeeds only with the two loop-body panic kinds. -/
theorem signInputs_err_kind (E : Env) (pkcs8 : List Nat) :
    ∀ (inputs : List Txinput) (idx : Nat) (tc : Transaction) (e : TxError),
      signInputs E pkcs8 inputs idx tc = .error e →
      e = TxError.missingPriorTx ∨ e = TxError.indexOutOfBounds := by
  intro inputs
  induction inputs with
  | nil => intro idx tc e h; simp [signInputs] at h
  | cons i rest ih =>
    intro idx tc e h
    cases hsd : scratchDigest E i idx tc with
    | error e2 =>
      simp only [signInputs, hsd] at h
      cases h
      exact scratchDigest_err_kind E i idx tc e hsd
    | ok p =>
      obtain ⟨d, tc'⟩ := p
      cases hrec : signInputs E pkcs8 rest (idx + 1) tc' with
      | error e2 =>
        simp only [signInputs, hsd, hrec] at h
        cases h
        exact ih (idx + 1) tc' e hrec
      | ok q =>
        obtain ⟨rest', tcF⟩ := q
        simp [signInputs, hsd, hrec] at h

/-- The signing loop touches only the signature field: every produced
input keeps its prior reference and claimed public key. -/
theorem signInputs_frame (E : Env) (pkcs8 : List Nat) :
    ∀ (inputs : List Txinput) (idx : Nat) (tc : Transaction)
      (outs : List Txinput) (tcF : Transaction),
      signInputs E pkcs8 inputs idx tc = .ok (outs, tcF) →
      List.Forall₂
        (fun a b => a.txid = b.txid ∧ a.vout = b.vout ∧ a.pub_key = b.pub_key)
        inputs outs := by
  intro inputs
  induction inputs with
  | nil =>
    intro idx tc outs tcF h
    simp only [signInputs, Except.ok.injEq, Prod.mk.injEq] at h
    rw [← h.1]
    exact List.Forall₂.nil
  | cons i rest ih =>
    intro idx tc outs tcF h
    cases hsd : scratchDigest E i idx tc with
    | error e => simp [signInputs, hsd] at h
    | ok p =>
      obtain ⟨d, tc'⟩ := p
      cases hrec : signInputs E pkcs8 rest (idx + 1) tc' with
      | error e => simp [signInputs, hsd, hrec] at h
      | ok q =>
        obtain ⟨rest', tcF'⟩ := q
        simp only [signInputs, hsd, hrec, Except.ok.injEq, Prod.mk.injEq] at h
        rw [← h.1]
        exact List.Forall₂.cons ⟨rfl, rfl, rfl⟩ (ih (idx + 1) tc' rest' tcF' hrec)

/-- Signing then verifying over the same scratch thread: if the signature
primitive round-trips for the key pair and every input carries the
signing public key, the verification loop accepts the signed inputs. -/
theorem signInputs_verified (E : Env) (pkcs8 pub : List Nat)
    (hcor : ∀ m, E.verifyFn pub (E.signFn pkcs8 m) m = true) :
    ∀ (inputs : List Txinput) (idx : Nat) (tc : Transaction)
      (outs : List Txinput) (tcF : Transaction),
      (∀ i ∈ inputs, i.pub_key = pub) →
      signInputs E pkcs8 inputs idx tc = .ok (outs, tcF) →
      verifyInputs E outs idx tc = .ok true := by
  intro inputs
  induction inputs with
  | nil =>
    intro idx tc outs tcF _ h
    simp only [signInputs, Except.ok.injEq, Prod.mk.injEq] at h
    rw [← h.1]
    rfl
  | cons i rest ih =>
    intro idx tc outs tcF hpk h
    cases hsd : scratchDigest E i idx tc with
    | error e => simp [signInputs, hsd] at h
    | ok p =>
      obtain ⟨d, tc'⟩ := p
      cases hrec : signInputs E pkcs8 rest (idx + 1) tc' with
      | error e => simp [signInputs, hsd, hrec] at h
      | ok q =>
        obtain ⟨rest', tcF'⟩ := q
        simp only [signInputs, hsd, hrec, Except.ok.injEq, Prod.mk.injEq] at h
        rw [← h.1]
        simp only [verifyInputs, scratchDigest_sig_irrel, hsd]
        have hpub : i.pub_key = pub := hpk i (List.mem_cons_self i rest)
        simp only [hpub, hcor d, if_true]
        exact ih (idx + 1) tc' rest' tcF'
          (fun j hj => hpk j (List.mem_cons_of_mem i hj)) hrec

/-- The signing loop cannot succeed when some input references an
unresolvable prior transaction. -/
theorem signInputs_missing_not_ok (E : Env) (pkcs8 : List Nat) :
    ∀ (inputs : List Txinput) (idx : Nat) (tc : Transaction),
      (∃ i ∈ inputs, E.resolver i.txid = none) →
      ∀ (outs : List Txinput) (tcF : Transaction),
        signInputs E pkcs8 inputs idx tc ≠ .ok (outs, tcF) := by
  intro inputs
  induction inputs with
  | nil =>
    intro idx tc h outs tcF
    obtain ⟨i, hmem, _⟩ := h
    cases hmem
  | cons i rest ih =>
    intro idx tc h outs tcF hok
    obtain ⟨j, hmem, hres⟩ := h
    rcases List.mem_cons.mp hmem with hj | hj
    · subst hj
      rw [signInputs, scratchDigest_missing E j idx tc hres] at hok
      cases hok
    · cases hsd : scratchDigest E i idx tc with
      | error e =>
        simp [signInputs, hsd] at hok
      | ok p =>
        obtain ⟨d, tc'⟩ := p
        cases hrec : signInputs E pkcs8 rest (idx + 1) tc' with
        | error e => simp [signInputs, hsd, hrec] at hok
        | ok q =>
          obtain ⟨rest', tcF'⟩ := q
          exact ih (idx + 1) tc' ⟨j, hj, hres⟩ rest' tcF' hrec

/-- The verification loop cannot return true when some input references an
unresolvable prior transaction: it stops earlier with false or fails. -/
theorem verifyInputs_missing_not_true (E : Env) :
    ∀ (inputs : List Txinput) (idx : Nat) (tc : Transaction),
      (∃ i ∈ inputs, E.resolver i.txid = none) →
      verifyInputs E inputs idx tc ≠ .ok true := by
  intro inputs
  induction inputs with
  | nil =>
    intro idx tc h
    obtain ⟨i, hmem, _⟩ := h
    cases hmem
  | cons i rest ih =>
    intro idx tc h hok
    obtain ⟨j, hmem, hres⟩ := h
    rcases List.mem_cons.mp hmem with hj | hj
    · subst hj
      rw [verifyInputs, scratchDigest_missing E j idx tc hres] at hok
      cases hok
    · cases hsd : scratchDigest E i idx tc with
      | error e => simp [verifyInputs, hsd] at hok
      | ok p =>
        obtain ⟨d, tc'⟩ := p
        simp only [verifyInputs, hsd] at hok
        cases hb : E.verifyFn i.pub_key i.signature d with
        | true =>
          simp only [hb, if_true] at hok
          exact ih (idx + 1) tc' ⟨j, hj, hres⟩ hok
        | false =>
          simp [hb] at hok

/-- The signing loop succeeds whenever every input resolves and its
referenced output index is in range. -/
theorem signInputs_total (E : Env) (pkcs8 : List Nat) :
    ∀ (inputs : List Txinput) (idx : Nat) (tc : Transaction),
      (∀ i ∈ inputs, ∃ prev, E.resolver i.txid = some prev ∧
        i.vout < prev.vout.length) →
      ∃ outs tcF, signInputs E pkcs8 inputs idx tc = .ok (outs, tcF) := by
  intro inputs
  induction inputs with
  | nil => intro idx tc _; exact ⟨[], tc, rfl⟩
  | cons i rest ih =>
    intro idx tc h
    obtain ⟨prev, hres, hlt⟩ := h i (List.mem_cons_self i rest)
    obtain ⟨d, tc', hsd⟩ := scratchDigest_total E i idx tc prev hres hlt
    obtain ⟨outs, tcF, hrec⟩ :=
      ih (idx + 1) tc' (fun j hj => h j (List.mem_cons_of_mem i hj))
    exact ⟨{ i with signature := E.signFn pkcs8 d } :: outs, tcF,
      by simp [signInputs, hsd, hrec]⟩

/-- The verification loop succeeds (with some boolean) whenever every
input resolves and its referenced output index is in range. -/
theorem verifyInputs_total (E : Env) :
    ∀ (inputs : List Txinput) (idx : Nat) (tc : Transaction),
      (∀ i ∈ inputs, ∃ prev, E.resolver i.txid = some prev ∧
        i.vout < prev.vout.length) →
      ∃ b, verifyInputs E inputs idx tc = .ok b := by
  intro inputs
  induction inputs with
  | nil => intro idx tc _; exact ⟨true, rfl⟩
  | cons i rest ih =>
    intro idx tc h
    obtain ⟨prev, hres, hlt⟩ := h i (List.mem_cons_self i rest)
    obtain ⟨d, tc', hsd⟩ := scratchDigest_total E i idx tc prev hres hlt
    cases hb : E.verifyFn i.pub_key i.signature d with
    | true =>
      obtain ⟨b, hrec⟩ :=
        ih (idx + 1) tc' (fun j hj => h j (List.mem_cons_of_mem i hj))
      exact ⟨b, by simp [verifyInputs, hsd, hb, hrec]⟩
    | false =>
      exact ⟨false, by simp [verifyInputs, hsd, hb]⟩

/-- Clearing signatures and keys over two pointwise-matching input lists
gives the same list. -/
theorem map_clear_congr {l1 l2 : List Txinput}
    (h : List.Forall₂ (fun a b => a.txid = b.txid ∧ a.vout = b.vout) l1 l2) :
    l1.map (fun i => Txinput.new i.txid i.vout [])
      = l2.map (fun i => Txinput.new i.txid i.vout []) := by
  induction h with
  | nil => rfl
  | cons h1 _ ih =>
    simp only [List.map_cons, ih, h1.1, h1.2]

/-- Transactions agreeing on id, outputs and the prior references of
their inputs have identical trimmed copies. -/
theorem trimmed_copy_congr {tx tx' : Transaction}
    (hid : tx'.id = tx.id) (hvout : tx'.vout = tx.vout)
    (hvin : List.Forall₂ (fun a b => a.txid = b.txid ∧ a.vout = b.vout)
      tx.vin tx'.vin) :
    tx'.trimmed_copy = tx.trimmed_copy := by
  unfold Transaction.trimmed_copy
  rw [hid, hvout, ← map_clear_congr hvin]

/-- Successful signing decomposes into a successful signing loop from the
trimmed copy, with only the input list replaced on the original. -/
theorem sign_ok_shape (E : Env) (pkcs8 : List Nat) (tx tx' : Transaction)
    (h : tx.sign E pkcs8 = .ok tx') :
    ∃ vin' tcF,
      signInputs E pkcs8 tx.vin 0 tx.trimmed_copy = .ok (vin', tcF) ∧
      tx' = { tx with vin := vin' } := by
  unfold Transaction.sign at h
  cases hs : signInputs E pkcs8 tx.vin 0 tx.trimmed_copy with
  | error e => rw [hs] at h; cases h
  | ok p =>
    obtain ⟨vin', tcF⟩ := p
    rw [hs] at h
    exact ⟨vin', tcF, rfl, (Except.ok.inj h).symm⟩

/-- Every input built by the spend constructor carries the sending
wallet's public key. -/
theorem mem_utxo_inputs_pub_key (pk : List Nat)
    (valid : List (String × List Nat)) :
    ∀ i ∈ (valid.map
      (fun p => p.2.map (fun idx => Txinput.new p.1 idx pk))).flatten,
      i.pub_key = pk := by
  intro i hi
  simp only [List.mem_flatten, List.mem_map] at hi
  obtain ⟨l, ⟨p, _, rfl⟩, hil⟩ := hi
  obtain ⟨idx, _, rfl⟩ := List.mem_map.mp hil
  rfl

/-- Signing attaches signatures that the verifier will accept: if the
signature primitive round-trips for the key pair and every input of `tx`
carries the signing public key, a successful `sign` yields a transaction
that `verify` accepts. -/
theorem sign_verify_general (E : Env) (pkcs8 pub : List Nat)
    (tx tx' : Transaction)
    (hcor : ∀ m, E.verifyFn pub (E.signFn pkcs8 m) m = true)
    (hpk : ∀ i ∈ tx.vin, i.pub_key = pub)
    (hsign : tx.sign E pkcs8 = .ok tx') :
    tx'.verify E = .ok true := by
  obtain ⟨vin', tcF, hs, rfl⟩ := sign_ok_shape E pkcs8 tx tx' hsign
  by_cases hcb : ({ tx with vin := vin' } : Transaction).is_coinbase = true
  · simp [Transaction.verify, hcb]
  · have hframe := signInputs_frame E pkcs8 tx.vin 0 tx.trimmed_copy vin' tcF hs
    have htc : ({ tx with vin := vin' } : Transaction).trimmed_copy
        = tx.trimmed_copy :=
      trimmed_copy_congr rfl rfl (hframe.imp (fun _ _ hr => ⟨hr.1, hr.2.1⟩))
    simp only [Transaction.verify, hcb, Bool.false_eq_true, if_false, htc]
    exact signInputs_verified E pkcs8 pub hcor tx.vin 0 tx.trimmed_copy
      vin' tcF hpk hs

/-! Claim theorems. -/

/-- C1: sign/verify round-trip.  For every spend transaction produced and
signed by the builder (`new_utxo`), if the sender's wallet resolves and
the signature primitive round-trips for the wallet's key pair, then
verifying the produced transaction against the same resolver returns
true; the per-input scratch digests the verifier recomputes coincide with
the ones the signer signed. -/
theorem C1_sign_verify_roundtrip (E : Env) (sender recipient : String)
    (amount : Int) (w : Wallet) (tx : Transaction)
    (hw : E.wallets sender = some w)
    (hcor : ∀ m, E.verifyFn w.public_key (E.signFn w.pkcs8 m) m = true)
    (hok : Transaction.new_utxo E sender recipient amount = .ok tx) :
    tx.verify E = .ok true := by
  simp only [Transaction.new_utxo, hw] at hok
  split at hok
  · cases hok
  · exact sign_verify_general E w.pkcs8 w.public_key _ tx hcor
      (fun i hi => mem_utxo_inputs_pub_key w.public_key _ i hi) hok

/-- C1 witness: the amount-4 spend built in the toy environment verifies. -/
theorem C1_witness : cSpendTx.verify cEnv = .ok true :=
  C1_sign_verify_roundtrip cEnv "alice" "bob" 4
    { public_key := [1], pkcs8 := [1] } cSpendTx rfl (fun _ => rfl) rfl

/-- C2: fund conservation.  A successful spend construction yields exactly
one output of `amount` locked to the recipient plus, exactly when the
accumulated total strictly exceeds `amount`, one change output of the
difference locked back to the sender; the output values sum to the
accumulated total. -/
theorem C2_fund_conservation (E : Env) (sender recipient : String)
    (amount : Int) (w : Wallet) (tx : Transaction)
    (hw : E.wallets sender = some w)
    (hok : Transaction.new_utxo E sender recipient amount = .ok tx) :
    tx.vout =
      (if amount < (E.find_spendable (E.hash_pub_key w.public_key) amount).1
       then [Txoutput.new E.lock amount recipient,
             Txoutput.new E.lock
               ((E.find_spendable (E.hash_pub_key w.public_key) amount).1 - amount)
               sender]
       else [Txoutput.new E.lock amount recipient]) ∧
    (tx.vout.map Txoutput.value).sum
      = (E.find_spendable (E.hash_pub_key w.public_key) amount).1 := by
  simp only [Transaction.new_utxo, hw] at hok
  split at hok
  · cases hok
  · rename_i hge
    obtain ⟨vin', tcF, _, rfl⟩ := sign_ok_shape E w.pkcs8 _ _ hok
    constructor
    · by_cases hlt : amount < (E.find_spendable (E.hash_pub_key w.public_key) amount).1
        <;> simp [Transaction.set_hash, hlt]
    · by_cases hlt : amount < (E.find_spendable (E.hash_pub_key w.public_key) amount).1
      · simp [Transaction.set_hash, hlt, Txoutput.new]
      · have heq : (E.find_spendable (E.hash_pub_key w.public_key) amount).1 = amount := by
          omega
        simp [Transaction.set_hash, hlt, Txoutput.new, heq]

/-- C2 witness: the amount-4 spend against 10 accumulated units has
outputs `[4 to bob, 6 change to alice]` summing to 10. -/
theorem C2_witness :
    cSpendTx.vout = [Txoutput.new cEnv.lock 4 "bob", Txoutput.new cEnv.lock 6 "alice"] ∧
    (cSpendTx.vout.map Txoutput.value).sum = 10 := by
  have h := C2_fund_conservation cEnv "alice" "bob" 4
    { public_key := [1], pkcs8 := [1] } cSpendTx rfl rfl
  exact h

/-- C3: insufficient funds abort.  With the sender's wallet resolved, a
spend construction fails with `InsufficientFundsError` exactly when the
accumulated spendable total is below the requested amount; when it is at
least the amount, that error cannot occur. -/
theorem C3_insufficient_funds (E : Env) (sender recipient : String)
    (amount : Int) (w : Wallet)
    (hw : E.wallets sender = some w) :
    ((E.find_spendable (E.hash_pub_key w.public_key) amount).1 < amount →
      Transaction.new_utxo E sender recipient amount
        = .error TxError.insufficientFunds) ∧
    (amount ≤ (E.find_spendable (E.hash_pub_key w.public_key) amount).1 →
      Transaction.new_utxo E sender recipient amount
        ≠ .error TxError.insufficientFunds) := by
  constructor
  · intro hlt
    simp [Transaction.new_utxo, hw, hlt]
  · intro hge hcontra
    simp only [Transaction.new_utxo, hw] at hcontra
    split at hcontra
    · rename_i hlt; omega
    · unfold Transaction.sign at hcontra
      cases hs : signInputs E w.pkcs8 _ 0 _ with
      | error e =>
        rw [hs] at hcontra
        have hkind := signInputs_err_kind E w.pkcs8 _ _ _ _ hs
        cases Except.error.inj hcontra
        rcases hkind with h | h <;> cases h
      | ok p =>
        rw [hs] at hcontra
        cases hcontra

/-- C3 witness: requesting amount 11 against 10 available units fails
with the insufficient-funds error. -/
theorem C3_witness :
    Transaction.new_utxo cEnv "alice" "bob" 11 = .error TxError.insufficientFunds :=
  (C3_insufficient_funds cEnv "alice" "bob" 11
    { public_key := [1], pkcs8 := [1] } rfl).1 (by decide)

/-- C4: reward predicate.  `is_coinbase` returns true exactly when the
transaction has exactly one input and that input's authorizer public key
is empty. -/
theorem C4_is_reward_iff (tx : Transaction) :
    tx.is_coinbase = true ↔ ∃ i, tx.vin = [i] ∧ i.pub_key = [] := by
  cases hvin : tx.vin with
  | nil => simp [Transaction.is_coinbase, hvin]
  | cons i rest =>
    cases rest with
    | nil => simp [Transaction.is_coinbase, hvin, List.length_eq_zero]
    | cons j rest' => simp [Transaction.is_coinbase, hvin]

/-- C5: unconditional reward acceptance.  Any transaction satisfying the
reward predicate verifies true in every environment — whatever its
signature bytes hold and whatever the resolver answers. -/
theorem C5_reward_unconditional (E : Env) (tx : Transaction)
    (h : tx.is_coinbase = true) :
    tx.verify E = .ok true := by
  simp [Transaction.verify, h]

/-- C5 witness: the reward-shaped transaction with garbage signature
bytes verifies in the toy environment. -/
theorem C5_witness : cRewardTx.verify cEnv = .ok true :=
  C5_reward_unconditional cEnv cRewardTx rfl

/-- C6 counterexample: a non-reward transaction containing an input whose
prior transaction the resolver cannot resolve, on which `verify`
nevertheless returns false (the earlier input fails its signature check
first) instead of failing fatally. -/
theorem C6_counterexample :
    badTx.is_coinbase = false ∧
    cMissIn.txid = "missing" ∧
    cEnv.resolver "missing" = none ∧
    badTx.vin.map Txinput.txid = ["t1", "missing"] ∧
    badTx.verify cEnv = .ok false := by
  refine ⟨rfl, rfl, rfl, rfl, rfl⟩

/-- C6 (amended): for every non-reward transaction with some input whose
prior transaction the resolver cannot resolve, signing never returns a
(partially) signed transaction and verification never returns true;
verification fails fatally with the missing-prior-transaction error when
the unresolvable input comes first, but an earlier input failing its
signature check can make `verify` return false before the missing prior
transaction is noticed. -/
theorem C6_missing_prior_amended (E : Env) (tx : Transaction)
    (i : Txinput) (hmem : i ∈ tx.vin)
    (hres : E.resolver i.txid = none)
    (hnc : tx.is_coinbase = false) :
    (∀ pkcs8 tx', tx.sign E pkcs8 ≠ .ok tx') ∧
    tx.verify E ≠ .ok true ∧
    (∀ rest, tx.vin = i :: rest →
      tx.verify E = .error TxError.missingPriorTx) := by
  refine ⟨?_, ?_, ?_⟩
  · intro pkcs8 tx' hcontra
    obtain ⟨vin', tcF, hs, _⟩ := sign_ok_shape E pkcs8 tx tx' hcontra
    exact signInputs_missing_not_ok E pkcs8 tx.vin 0 tx.trimmed_copy
      ⟨i, hmem, hres⟩ vin' tcF hs
  · intro hcontra
    simp only [Transaction.verify, hnc, Bool.false_eq_true, if_false] at hcontra
    exact verifyInputs_missing_not_true E tx.vin 0 tx.trimmed_copy
      ⟨i, hmem, hres⟩ hcontra
  · intro rest hvin
    simp only [Transaction.verify, hnc, Bool.false_eq_true, if_false, hvin]
    simp [verifyInputs, scratchDigest_missing E i 0 tx.trimmed_copy hres]

/-- C6 witness: the one-input transaction with an unresolvable prior
reference cannot verify true, and fails fatally with the
missing-prior-transaction error. -/
theorem C6_witness :
    cMissingTx.verify cEnv ≠ .ok true ∧
    cMissingTx.verify cEnv = .error TxError.missingPriorTx := by
  have h := C6_missing_prior_amended cEnv cMissingTx cMissIn
    (List.mem_cons_self cMissIn []) rfl rfl
  exact ⟨h.2.1, h.2.2 [] rfl⟩

/-- C7: verifier order and short-circuit.  For a non-reward transaction:
when the digest thread over the whole input list is defined (every prior
transaction resolves and each referenced output index is in range),
`verify` returns exactly the conjunction of the per-input signature
checks, taken in positional order; and whenever some prefix of the
inputs passes all checks and the next input's check fails, `verify`
returns false regardless of the remaining inputs (they are never
examined). -/
theorem C7_verifier_shortcircuit (E : Env) (tx : Transaction)
    (hnc : tx.is_coinbase = false) :
    (∀ ds tcF, digestThread E tx.vin 0 tx.trimmed_copy = .ok (ds, tcF) →
      tx.verify E = .ok ((List.zipWith (inputPasses E) tx.vin ds).all id)) ∧
    (∀ pre i post ds0 tc' d tcF,
      tx.vin = pre ++ i :: post →
      digestThread E pre 0 tx.trimmed_copy = .ok (ds0, tc') →
      (List.zipWith (inputPasses E) pre ds0).all id = true →
      scratchDigest E i pre.length tc' = .ok (d, tcF) →
      inputPasses E i d = false →
      tx.verify E = .ok false) := by
  constructor
  · intro ds tcF h
    simp only [Transaction.verify, hnc, Bool.false_eq_true, if_false]
    exact verifyInputs_of_digestThread E tx.vin 0 tx.trimmed_copy ds tcF h
  · intro pre i post ds0 tc' d tcF hvin hpre hall hsd hfail
    simp only [Transaction.verify, hnc, Bool.false_eq_true, if_false, hvin]
    rw [verifyInputs_append E pre (i :: post) 0 tx.trimmed_copy ds0 tc' hpre hall]
    rw [show 0 + pre.length = pre.length from Nat.zero_add pre.length]
    simp only [verifyInputs, hsd]
    simp only [inputPasses] at hfail
    simp [hfail]

/-- C7 witness: the one-input passing transaction verifies to the value
of its single signature check. -/
theorem C7_witness : cVerTx.verify cEnv = .ok true :=
  (C7_verifier_shortcircuit cEnv cVerTx rfl).1 ["d"] cThreadF rfl

/-- Character codes determine characters. -/
theorem char_toNat_injective : Function.Injective Char.toNat := by
  intro c d h
  rw [← Char.ofNat_toNat c, ← Char.ofNat_toNat d, h]

/-- C8: self-referential identifier hashing.  The set-identifier
operation hashes the serialized transaction with its current `id` field
in place (not cleared), the serialized form determines the `id` field
that went into it, and transactions agreeing on inputs and outputs but
differing in `id` serialize differently — so the freshly written digest
is a function of the previous `id` value as well as of the inputs and
outputs. -/
theorem C8_self_referential_id :
    (∀ (E : Env) (tx : Transaction),
      (Transaction.set_hash E tx).id = E.hash (serializeTx tx)) ∧
    (∀ t1 t2 : Transaction, serializeTx t1 = serializeTx t2 → t1.id = t2.id) ∧
    (∃ t1 t2 : Transaction, t1.vin = t2.vin ∧ t1.vout = t2.vout ∧
      serializeTx t1 ≠ serializeTx t2) := by
  refine ⟨fun E tx => rfl, ?_, ?_⟩
  · intro t1 t2 h
    simp only [serializeTx, encStr, List.cons_append, List.append_assoc,
      List.cons.injEq] at h
    obtain ⟨hlen, htail⟩ := h
    have hlen2 : (t1.id.data.map Char.toNat).length
        = (t2.id.data.map Char.toNat).length := by
      simp only [List.length_map]
      exact hlen
    have hmap := (List.append_inj htail hlen2).1
    have hdata : t1.id.data = t2.id.data :=
      List.map_injective_iff.mpr char_toNat_injective hmap
    exact String.ext hdata
  · exact ⟨{ id := "a", vin := [], vout := [] },
      { id := "b", vin := [], vout := [] }, rfl, rfl, by decide⟩

/-- C8 witness: the serialization-determines-id implication instantiated
at a concrete transaction. -/
theorem C8_witness :
    ({ id := "a", vin := [], vout := [] } : Transaction).id
      = ({ id := "a", vin := [], vout := [] } : Transaction).id :=
  C8_self_referential_id.2.1 { id := "a", vin := [], vout := [] }
    { id := "a", vin := [], vout := [] } rfl

/-- C9: signing frame property.  A successful signing pass leaves the
transaction's id and outputs unchanged and rewrites each input only in
its signature field: prior reference and claimed public key are
preserved positionally. -/
theorem C9_sign_frame (E : Env) (pkcs8 : List Nat) (tx tx' : Transaction)
    (h : tx.sign E pkcs8 = .ok tx') :
    tx'.id = tx.id ∧ tx'.vout = tx.vout ∧
    List.Forall₂
      (fun a b => a.txid = b.txid ∧ a.vout = b.vout ∧ a.pub_key = b.pub_key)
      tx.vin tx'.vin := by
  obtain ⟨vin', tcF, hs, rfl⟩ := sign_ok_shape E pkcs8 tx tx' h
  exact ⟨rfl, rfl, signInputs_frame E pkcs8 tx.vin 0 tx.trimmed_copy vin' tcF hs⟩

/-- C9 witness: signing the concrete two-input spend changes no field
except the signatures. -/
theorem C9_witness :
    cSigned.id = cUnsigned.id ∧ cSigned.vout = cUnsigned.vout ∧
    List.Forall₂
      (fun a b => a.txid = b.txid ∧ a.vout = b.vout ∧ a.pub_key = b.pub_key)
      cUnsigned.vin cSigned.vin :=
  C9_sign_frame cEnv [1] cUnsigned cSigned rfl

/-- C10: unchecked output indexing.  When a non-reward transaction's
first input resolves but references an output index past the end of the
resolved transaction's output list, both `verify` and `sign` abort with
the indexing panic (modelled as `indexOutOfBounds`) instead of returning
false or a transaction; and under the precondition that every input
resolves with its index in range, both operations complete without any
abort. -/
theorem C10_unchecked_indexing (E : Env) (tx : Transaction) :
    (∀ i rest prev, tx.is_coinbase = false → tx.vin = i :: rest →
      E.resolver i.txid = some prev → prev.vout.length ≤ i.vout →
      tx.verify E = .error TxError.indexOutOfBounds ∧
      ∀ pkcs8, tx.sign E pkcs8 = .error TxError.indexOutOfBounds) ∧
    (∀ pkcs8, (∀ i ∈ tx.vin, ∃ prev, E.resolver i.txid = some prev ∧
        i.vout < prev.vout.length) →
      (∃ tx', tx.sign E pkcs8 = .ok tx') ∧ (∃ b, tx.verify E = .ok b)) := by
  constructor
  · intro i rest prev hnc hvin hres hge
    have hsd := scratchDigest_oob E i 0 tx.trimmed_copy prev hres hge
    constructor
    · simp only [Transaction.verify, hnc, Bool.false_eq_true, if_false, hvin]
      simp [verifyInputs, hsd]
    · intro pkcs8
      unfold Transaction.sign
      rw [hvin]
      simp [signInputs, hsd]
  · intro pkcs8 hall
    constructor
    · obtain ⟨outs, tcF, hs⟩ :=
        signInputs_total E pkcs8 tx.vin 0 tx.trimmed_copy hall
      exact ⟨{ tx with vin := outs }, by simp [Transaction.sign, hs]⟩
    · by_cases hcb : tx.is_coinbase = true
      · exact ⟨true, by simp [Transaction.verify, hcb]⟩
      · obtain ⟨b, hv⟩ := verifyInputs_total E tx.vin 0 tx.trimmed_copy hall
        exact ⟨b, by simp [Transaction.verify, hcb, hv]⟩

/-- C10 witness: the out-of-range reference into the two-output prior
transaction aborts verification, while the all-in-range spend signs
successfully. -/
theorem C10_witness :
    cOobTx.verify cEnv = .error TxError.indexOutOfBounds ∧
    ∃ tx', cUnsigned.sign cEnv [1] = .ok tx' := by
  constructor
  · exact ((C10_unchecked_indexing cEnv cOobTx).1
      { txid := "t1", vout := 5, signature := [], pub_key := [1] }
      [] cPrior rfl rfl rfl (by decide)).1
  · exact (((C10_unchecked_indexing cEnv cUnsigned).2 [1]) (by decide)).1
